import Mathlib

/-!
Verification of the OCR-driven UI state machine of the `invisible-hand`
repository (`state_machine.py`, `ocr_processor.py`, `screenread.py`).

The screen graph is modelled by node names (strings), exactly as the source
builds it: `State` objects are identified by their unique `name`, and each
the `transitions` dictionary of each state is an insertion-ordered list of
`(input, target_state)` pairs.  `_find_path` is the breadth-first search of
`OCRBasedStateMachine._find_path`, embedded with an explicit fuel parameter
whose sufficiency is proved (the source loop has no fuel; the fuel is an
artifact of totality and is shown never to run out for well-formed graphs).
-/

namespace InvisibleHand

/-- A screen graph: the list of screen names (the keys of the `states`
dictionary, in insertion order) together with, for each screen, the ordered
list of transition target names (the order of `State.transitions.items()`). -/
structure ScreenGraph where
  nodes : List String
  succ : String → List String

/-- Well-formedness of a screen graph as guaranteed by `setup_transitions`:
screen names are distinct, and every transition target is a known screen. -/
def WFGraph (g : ScreenGraph) : Prop :=
  g.nodes.Nodup ∧ ∀ x ∈ g.nodes, ∀ y ∈ g.succ x, y ∈ g.nodes

instance (g : ScreenGraph) : Decidable (WFGraph g) := by
  unfold WFGraph; infer_instance

/-- A directed walk in the graph from `s`, reaching the indexed node in the
given number of edges.  Edges are appended at the end, matching how the BFS
extends its recorded paths. -/
inductive Walk (g : ScreenGraph) (s : String) : String → Nat → Prop
  | nil : Walk g s s 0
  | cons {z y : String} {n : Nat} : Walk g s z n → y ∈ g.succ z → Walk g s y (n + 1)

/-- Reachability: some walk of some length exists. -/
def Reachable (g : ScreenGraph) (s t : String) : Prop :=
  ∃ n, Walk g s t n

/-- Boolean test: `t` is reachable from `s` by a walk of at most `n` edges
whose intermediate nodes are graph nodes. -/
def reachInB (g : ScreenGraph) (s : String) : Nat → String → Bool
  | 0, y => y == s
  | n + 1, y =>
      reachInB g s n y ||
        g.nodes.any (fun z => reachInB g s n z && (g.succ z).contains y)

/-- Search for the least `n` with `reachInB g s t n`, trying
`n, n+1, ..., n+k-1`. -/
def distAux (g : ScreenGraph) (s t : String) : Nat → Nat → Option Nat
  | 0, _ => none
  | k + 1, n => if reachInB g s n t then some n else distAux g s t k (n + 1)

/-- The BFS shortest-path distance (in edges) from `s` to `t`, `none` when
`t` is not reachable within `|nodes|` steps. -/
def distOf (g : ScreenGraph) (s t : String) : Option Nat :=
  distAux g s t (g.nodes.length + 1) 0

/-- A queue entry of `_find_path`: the dequeued state together with the
recorded path that led to it (`(next_state, path + [current_state])`). -/
abbrev Entry := String × List String

/-- The children enqueued when expanding `x` with recorded path `p`:
`for input, (next_state, action) in current_state.transitions.items():
   if next_state not in visited: queue.append((next_state, path + [current_state]))`. -/
def bfsChildren (g : ScreenGraph) (x : String) (p : List String)
    (vis : List String) : List Entry :=
  ((g.succ x).filter (fun y => decide (y ∉ vis))).map (fun y => (y, p ++ [x]))

/-- The main loop of `_find_path`, with fuel.  The state is the FIFO queue
(`deque`), the `visited` set (a list up to membership), and a ghost trace of
dequeued nodes.  `none` means the fuel ran out (proved impossible below for
the fuel used by `find_path`); `some (r, tr)` means the loop finished with
result `r` having dequeued the nodes `tr` in order. -/
def bfsAux (g : ScreenGraph) (t : String) :
    Nat → List Entry → List String → List String →
      Option (Option (List String) × List String)
  | 0, _, _, _ => none
  | _ + 1, [], _, tr => some (none, tr)
  | fuel + 1, (x, p) :: rest, vis, tr =>
      if x = t then some (some (p ++ [x]), tr ++ [x])
      else
        bfsAux g t fuel (rest ++ bfsChildren g x p (vis.insert x))
          (vis.insert x) (tr ++ [x])

/-- The base of the termination measure: strictly more than the out-degree of
any node. -/
def graphB (g : ScreenGraph) : Nat :=
  (g.nodes.map (fun x => (g.succ x).length)).sum + 2

/-- Fuel sufficient for the whole search (proved below). -/
def bfsFuel (g : ScreenGraph) : Nat :=
  graphB g ^ (g.nodes.length + 1) + 1

/-- Shallow embedding of `OCRBasedStateMachine._find_path`, run from source
node `s` toward the screen named `t`. -/
def find_path (g : ScreenGraph) (s t : String) : Option (List String) :=
  match bfsAux g t (bfsFuel g) [(s, [])] [] [] with
  | some (r, _) => r
  | none => none

/-- The ghost trace of nodes dequeued (and expanded) by the search. -/
def bfsTrace (g : ScreenGraph) (s t : String) : List String :=
  match bfsAux g t (bfsFuel g) [(s, [])] [] [] with
  | some (_, tr) => tr
  | none => []

/-- Invariant of a single queue entry `(x, p)`: the recorded list `p ++ [x]`
starts at the source, witnesses a walk to `x` of exactly `p.length` edges,
has no duplicates, stays inside the graph, and all its proper ancestors have
already been visited. -/
def EntryInv (g : ScreenGraph) (s : String) (vis : List String) (e : Entry) : Prop :=
  (e.2 ++ [e.1]).head? = some s ∧
  Walk g s e.1 e.2.length ∧
  (e.2 ++ [e.1]).Nodup ∧
  (∀ z ∈ e.2 ++ [e.1], z ∈ g.nodes) ∧
  (∀ z ∈ e.2, z ∈ vis)

/-- Global invariant of the BFS loop state: sound entries, the two-layer FIFO
shape of the queue, soundness of the visited set, absence of the target from
the visited set, and completeness of the explored frontier. -/
structure BfsInv (g : ScreenGraph) (s t : String)
    (Q : List Entry) (vis : List String) (d0 : Nat) : Prop where
  entries : ∀ e ∈ Q, EntryInv g s vis e
  layers : ∃ Q1 Q2, Q = Q1 ++ Q2 ∧ (∀ e ∈ Q1, e.2.length = d0) ∧
      (∀ e ∈ Q2, e.2.length = d0 + 1) ∧ (Q ≠ [] → Q1 ≠ [])
  vis_walk : ∀ v ∈ vis, ∃ m ≤ d0, Walk g s v m
  t_notin : t ∉ vis
  compA1 : ∀ y n, Walk g s y n → n < d0 → y ∈ vis
  compA2 : ∀ y, Walk g s y d0 → y ∈ vis ∨ ∃ q, (y, q) ∈ Q ∧ q.length ≤ d0
  compB : ∀ y, Walk g s y (d0 + 1) → y ∈ vis ∨
      (∃ q, (y, q) ∈ Q ∧ q.length ≤ d0 + 1) ∨
      (∃ z q, (z, q) ∈ Q ∧ q.length ≤ d0 ∧ y ∈ g.succ z)

/-- Termination weight of one queue entry. -/
def entryWeight (g : ScreenGraph) (e : Entry) : Nat :=
  graphB g ^ (g.nodes.length + 1 - e.2.length)

/-- Termination measure of the whole queue. -/
def qMeasure (g : ScreenGraph) (Q : List Entry) : Nat :=
  (Q.map (entryWeight g)).sum

/-- Specification of the outcome of the BFS loop: it never runs out of fuel;
returning no path means unreachability; a returned path starts at the source,
ends at the target, and its edge count is the least walk length (which is
also bounded by the number of nodes). -/
def BfsOut (g : ScreenGraph) (s t : String) :
    Option (Option (List String) × List String) → Prop
  | none => False
  | some (none, _) => ¬ Reachable g s t
  | some (some p, _) => p.head? = some s ∧ p.getLast? = some t ∧
      ∃ d, p.length = d + 1 ∧ Walk g s t d ∧ (∀ m < d, ¬ Walk g s t m) ∧
        d + 1 ≤ g.nodes.length

/-- Observable effects of `detect_and_transition`.  `captureDetect` is one
`capture_window` plus `find_text_in_rois` call; `plan` marks the `_find_path`
invocation and records the source node the planner is given; `focusPull` is
`handler.pull_foreground()`; `fireAction` is the firing of a transition
action (the only place input-provider calls happen inside this method);
`debugSave` is `debug_save_image`. -/
inductive Event where
  | captureDetect : Event
  | plan : String → Event
  | focusPull : Event
  | fireAction : String → String → String → Event
  | debugSave : Event
deriving DecidableEq

/-- The OCR-based state machine: screen names, the transition table
(`input → target` per screen, insertion-ordered), and the current-screen
belief. -/
structure Machine where
  nodes : List String
  trans : String → List (String × String)
  current : String

/-- The screen graph induced by the transition table, as `_find_path`
traverses it. -/
def Machine.graphOf (M : Machine) : ScreenGraph :=
  ⟨M.nodes, fun x => (M.trans x).map Prod.snd⟩

/-- Result of a `detect_and_transition` call: the returned boolean, the final
belief, and the emitted effects in order. -/
structure DTResult where
  success : Bool
  final : String
  events : List Event
deriving DecidableEq

/-- The path-walking loop of `detect_and_transition` (`for state in path[1:]`):
look up the first transition of the current belief whose target is the next
path node, fire it, adopt the intended target as belief, re-detect, and
short-circuit with success when the fresh detection reports the overall
target.  `detect k` is the result of the `k`-th detection of this call. -/
def execPath (trans : String → List (String × String)) (detect : Nat → Option String)
    (target : String) : List String → String → Nat → List Event → DTResult
  | [], cur, _, evs => ⟨false, cur, evs ++ [Event.debugSave]⟩
  | st :: rest, cur, k, evs =>
      match (trans cur).find? (fun pr => pr.2 == st) with
      | none => ⟨false, cur, evs⟩
      | some (inp, tgt) =>
          if detect k = some target then
            ⟨true, tgt, evs ++ [Event.fireAction cur inp tgt, Event.captureDetect]⟩
          else
            execPath trans detect target rest tgt (k + 1)
              (evs ++ [Event.fireAction cur inp tgt, Event.captureDetect])

/-- Shallow embedding of `OCRBasedStateMachine.detect_and_transition`.
The detection oracle `detect` gives the outcome of the `k`-th
capture-and-detect of this call (`none` = no screen matched). -/
def detect_and_transition (M : Machine) (detect : Nat → Option String)
    (target : String) : DTResult :=
  if M.current = target then ⟨true, M.current, []⟩
  else
    let cur1 := match detect 0 with | some b => b | none => M.current
    if cur1 = target then ⟨true, cur1, [Event.captureDetect]⟩
    else
      match find_path M.graphOf cur1 target with
      | none => ⟨false, cur1, [Event.captureDetect, Event.plan cur1]⟩
      | some path =>
          execPath M.trans detect target (path.drop 1) cur1 1
            [Event.captureDetect, Event.plan cur1, Event.focusPull]

/-- The belief after the re-detection phase of `detect_and_transition`: the
original belief when the call returns at once or detection fails, otherwise
the freshly detected screen. -/
def dtBelief1 (M : Machine) (detect : Nat → Option String) (target : String) : String :=
  if M.current = target then M.current
  else match detect 0 with | some b => b | none => M.current

/-- Shallow embedding of `detect_initial_state_with_retries`, recursing on
the remaining loop iterations (`i` is the `attempt` index of the `for` loop).
`att i = some nm` models `_detect_initial_state` returning the state named
`nm` on attempt `i`; `att i = none` models its `ValueError`.  Returns the
outcome (`ok (some nm)` = detected, `error` = the re-raised `ValueError`,
`ok none` = the implicit `return None` when the loop body never runs)
together with the number of detection attempts made and the number of
`retry_action()` invocations. -/
def retryLoop (att : Nat → Option String) :
    Nat → Nat → Except Unit (Option String) × Nat × Nat
  | _, 0 => (Except.ok none, 0, 0)
  | i, r + 1 =>
      match att i with
      | some nm => (Except.ok (some nm), 1, 0)
      | none =>
          if r = 0 then (Except.error (), 1, 0)
          else
            ((retryLoop att (i + 1) r).1,
              (retryLoop att (i + 1) r).2.1 + 1,
              (retryLoop att (i + 1) r).2.2 + 1)

/-- The retry loop started as `__init__` starts it. -/
def detect_initial_state_with_retries (att : Nat → Option String)
    (maxRetries : Nat) : Except Unit (Option String) × Nat × Nat :=
  retryLoop att 0 maxRetries

/-- Embedding of `perform_ocr_for_state_engine_text`: its first act is
`image.shape`, which raises on a `None` frame (the value `capture_window`
returns when capture fails); on a real frame the recognized tokens are given
by the OCR oracle. -/
def perform_ocr_for_state_engine_text {Frame Roi : Type}
    (ocr : Frame → Roi → List String) (image : Option Frame) (roi : Roi) :
    Except Unit (List String) :=
  match image with
  | none => Except.error ()
  | some f => Except.ok (ocr f roi)

/-- Embedding of `OCRProcessor.find_text_in_rois`: scan the rules in order,
OCR each region, and return the first state whose expected text occurs as a
substring of a stripped token; `ok none` when no rule matches. -/
def find_text_in_rois {Frame Roi : Type} (ocr : Frame → Roi → List String)
    (image : Option Frame) :
    List (String × Roi × String) → Except Unit (Option String)
  | [] => Except.ok none
  | (state_name, roi, txt) :: rules =>
      match perform_ocr_for_state_engine_text ocr image roi with
      | Except.error e => Except.error e
      | Except.ok toks =>
          if toks.any (fun tok => decide (txt.toList <:+: tok.trim.toList)) then
            Except.ok (some state_name)
          else find_text_in_rois ocr image rules

/-- The screen catalog of `create_states` (the keys of the `states`
dictionary, in insertion order). -/
def repoStates : List String :=
  ["Main Menu", "Play", "Scoreboard", "In Game", "Menu", "Multiplayer",
    "Advanced Search", "Created", "Game Info", "Deploy", "Round Starting"]

/-- The transition table of `create_transitions` as installed by
`setup_transitions`: per screen, the `(trigger, target-name)` pairs in
insertion order (the attached actions are opaque input-provider calls). -/
def repoTrans : String → List (String × String)
  | "Main Menu" => [("enter_play", "Play")]
  | "Play" => [("enter_multiplayer", "Multiplayer")]
  | "Scoreboard" => [("exit_to_main_menu", "Main Menu"), ("exit_to_menu", "Menu")]
  | "In Game" => [("enter_main_menu", "Main Menu"), ("enter_menu", "Menu")]
  | "Menu" => [("enter_scoreboard", "Scoreboard"), ("enter_game", "In Game")]
  | "Multiplayer" => [("advanced_search", "Advanced Search")]
  | "Advanced Search" => [("enter_created", "Created")]
  | "Created" => [("game_info", "Game Info")]
  | "Game Info" => [("enter_game", "In Game")]
  | "Deploy" => [("enter_game", "In Game")]
  | "Round Starting" => [("enter_deploy", "Deploy")]
  | _ => []

/-- The repository state machine with a given current belief. -/
def repoMachine (cur : String) : Machine :=
  ⟨repoStates, repoTrans, cur⟩

/-- A three-node line graph used to instantiate the path-planner claims. -/
def gWitness : ScreenGraph :=
  ⟨["A", "B", "C"],
    fun x => if x = "A" then ["B"] else if x = "B" then ["C"] else []⟩

/-- A diamond graph: two distinct routes from `A` to `D`. -/
def gDiamond : ScreenGraph :=
  ⟨["A", "B", "C", "D"],
    fun x => if x = "A" then ["B", "C"]
      else if x = "B" then ["D"]
      else if x = "C" then ["D"] else []⟩

/-- A four-screen line machine used to instantiate the executor claims. -/
def mWit : Machine :=
  ⟨["A", "B", "C", "D"],
    fun x => if x = "A" then [("go", "B")]
      else if x = "B" then [("go", "C")]
      else if x = "C" then [("go", "D")] else [],
    "A"⟩

/-- Attempt oracle failing twice, then detecting the Menu screen. -/
def attWit : Nat → Option String :=
  fun j => if j < 2 then none else some "Menu"

/-- A walk of length `0` ends where it starts. -/
theorem Walk.eq_of_zero {g : ScreenGraph} {s y : String} (w : Walk g s y 0) : y = s := by
  cases w; rfl

/-- Walks stay inside the node set of a well-formed graph. -/
theorem Walk.mem_nodes {g : ScreenGraph} {s y : String} {n : Nat} (hwf : WFGraph g)
    (hs : s ∈ g.nodes) (w : Walk g s y n) : y ∈ g.nodes := by
  induction w with
  | nil => exact hs
  | cons w e ih => exact hwf.2 _ ih _ e

/-- The boolean bounded-reachability test agrees with the existence of a
short enough walk. -/
theorem reachInB_iff {g : ScreenGraph} {s : String} (hwf : WFGraph g)
    (hs : s ∈ g.nodes) (n : Nat) (y : String) :
    reachInB g s n y = true ↔ ∃ m ≤ n, Walk g s y m := by
  induction n generalizing y with
  | zero =>
    simp only [reachInB, beq_iff_eq]
    constructor
    · rintro rfl; exact ⟨0, le_refl 0, Walk.nil⟩
    · rintro ⟨m, hm, w⟩
      have : m = 0 := Nat.le_zero.mp hm
      subst this
      exact w.eq_of_zero
  | succ n ih =>
    simp only [reachInB, Bool.or_eq_true, List.any_eq_true, Bool.and_eq_true]
    constructor
    · rintro (h | ⟨z, _, hz, hy⟩)
      · obtain ⟨m, hm, w⟩ := (ih y).mp h
        exact ⟨m, Nat.le_succ_of_le hm, w⟩
      · obtain ⟨m, hm, w⟩ := (ih z).mp hz
        refine ⟨m + 1, Nat.succ_le_succ hm, w.cons ?_⟩
        simpa using hy
    · rintro ⟨m, hm, w⟩
      rcases Nat.lt_or_ge m (n + 1) with hlt | hge
      · exact Or.inl ((ih y).mpr ⟨m, Nat.lt_succ_iff.mp hlt, w⟩)
      · have hmeq : m = n + 1 := Nat.le_antisymm hm hge
        subst hmeq
        cases w with
        | cons w e =>
          rename_i z
          refine Or.inr ⟨z, w.mem_nodes hwf hs, (ih z).mpr ⟨n, le_refl n, w⟩, ?_⟩
          simpa using e

/-- Characterization of `distAux`: starting the scan at `n` with everything
below `n` already known unreachable, it returns the least walk length. -/
theorem distAux_eq_some {g : ScreenGraph} {s t : String} {d : Nat} :
    ∀ k n, n ≤ d → d < n + k → reachInB g s d t = true →
      (∀ m < d, reachInB g s m t = false) →
      distAux g s t k n = some d := by
  intro k
  induction k with
  | zero => intro n _ h2 _ _; omega
  | succ k ih =>
    intro n h1 h2 h3 h4
    by_cases hn : n = d
    · subst hn
      simp [distAux, h3]
    · have hlt : n < d := lt_of_le_of_ne h1 hn
      have : reachInB g s n t = false := h4 n hlt
      simp only [distAux, this, Bool.false_eq_true, if_false]
      exact ih (n + 1) hlt (by omega) h3 h4

/-- The entry invariant only depends on the visited set monotonically. -/
theorem EntryInv.mono {g : ScreenGraph} {s : String} {vis vis' : List String}
    {e : Entry} (h : EntryInv g s vis e) (hsub : ∀ z ∈ vis, z ∈ vis') :
    EntryInv g s vis' e :=
  ⟨h.1, h.2.1, h.2.2.1, h.2.2.2.1, fun z hz => hsub z (h.2.2.2.2 z hz)⟩

theorem qMeasure_append (g : ScreenGraph) (Q1 Q2 : List Entry) :
    qMeasure g (Q1 ++ Q2) = qMeasure g Q1 + qMeasure g Q2 := by
  simp [qMeasure]

theorem qMeasure_cons (g : ScreenGraph) (e : Entry) (Q : List Entry) :
    qMeasure g (e :: Q) = entryWeight g e + qMeasure g Q := by
  simp [qMeasure]

theorem graphB_ge_two (g : ScreenGraph) : 2 ≤ graphB g := by
  simp [graphB]

theorem succ_length_add_two_le {g : ScreenGraph} {x : String} (hx : x ∈ g.nodes) :
    (g.succ x).length + 2 ≤ graphB g := by
  have hmem : (g.succ x).length ∈ g.nodes.map (fun z => (g.succ z).length) :=
    List.mem_map.mpr ⟨x, hx, rfl⟩
  have := List.single_le_sum (fun y _ => Nat.zero_le y) _ hmem
  simp only [graphB]
  omega

/-- Membership in the children list produced by one expansion. -/
theorem mem_bfsChildren {g : ScreenGraph} {x : String} {p : List String}
    {vis : List String} {e : Entry} :
    e ∈ bfsChildren g x p vis ↔ ∃ y, y ∈ g.succ x ∧ y ∉ vis ∧ e = (y, p ++ [x]) := by
  simp only [bfsChildren, List.mem_map, List.mem_filter, decide_eq_true_eq]
  constructor
  · rintro ⟨y, ⟨hy, hv⟩, rfl⟩; exact ⟨y, hy, hv, rfl⟩
  · rintro ⟨y, hy, hv, rfl⟩; exact ⟨y, ⟨hy, hv⟩, rfl⟩

/-- Expanding a node strictly decreases the queue measure: the children are
fewer than the base and each weighs a `graphB`-factor less than the expanded
entry. -/
theorem qMeasure_children_lt {g : ScreenGraph} {x : String} {p : List String}
    (vis : List String) (hx : x ∈ g.nodes) (hlen : p.length + 1 ≤ g.nodes.length) :
    qMeasure g (bfsChildren g x p vis) < entryWeight g (x, p) := by
  set N := g.nodes.length with hN
  set B := graphB g with hB
  have hB2 : 2 ≤ B := graphB_ge_two g
  have hkey : N + 1 - p.length = (N - p.length) + 1 := by omega
  have hkey2 : N + 1 - (p.length + 1) = N - p.length := by omega
  have hw : ∀ w ∈ (bfsChildren g x p vis).map (entryWeight g),
      w ≤ B ^ (N - p.length) := by
    intro w hw
    obtain ⟨e, he, rfl⟩ := List.mem_map.mp hw
    obtain ⟨y, _, _, rfl⟩ := mem_bfsChildren.mp he
    simp [entryWeight, hkey2]
  have hsum : qMeasure g (bfsChildren g x p vis) ≤
      (bfsChildren g x p vis).length * B ^ (N - p.length) := by
    have := List.sum_le_card_nsmul ((bfsChildren g x p vis).map (entryWeight g))
      (B ^ (N - p.length)) hw
    simpa [qMeasure, smul_eq_mul] using this
  have hcount : (bfsChildren g x p vis).length ≤ (g.succ x).length := by
    simpa [bfsChildren] using List.length_filter_le _ (g.succ x)
  have hout : (g.succ x).length + 2 ≤ B := succ_length_add_two_le hx
  have hpos : 1 ≤ B ^ (N - p.length) := Nat.one_le_pow _ _ (by omega)
  calc qMeasure g (bfsChildren g x p vis)
      ≤ (g.succ x).length * B ^ (N - p.length) :=
        le_trans hsum (Nat.mul_le_mul_right _ hcount)
    _ < B * B ^ (N - p.length) := by
        have : (g.succ x).length < B := by omega
        exact Nat.mul_lt_mul_of_lt_of_le this (le_refl _) (by omega)
    _ = B ^ (N + 1 - p.length) := by rw [hkey, pow_succ, Nat.mul_comm]
    _ = entryWeight g (x, p) := rfl

/-- Prepending preserves a known head. -/
theorem head?_append_left {l l' : List String} {a : String}
    (h : l.head? = some a) : (l ++ l').head? = some a := by
  cases l with
  | nil => simp at h
  | cons b m => simpa using h

/-- When the queue is empty every reachable node has been visited, so the
target (never inserted into `visited`) is unreachable. -/
theorem bfsInv_nil_unreachable {g : ScreenGraph} {s t : String}
    {vis : List String} {d0 : Nat} (inv : BfsInv g s t [] vis d0) :
    ¬ Reachable g s t := by
  have T : ∀ y m, m ≤ d0 + 1 → Walk g s y m → y ∈ vis := by
    intro y m hm w
    rcases Nat.lt_trichotomy m d0 with hlt | heq | hgt
    · exact inv.compA1 y m w hlt
    · subst heq
      rcases inv.compA2 y w with hv | ⟨q, hq, _⟩
      · exact hv
      · simp at hq
    · have : m = d0 + 1 := by omega
      subst this
      rcases inv.compB y w with hv | ⟨q, hq, _⟩ | ⟨z, q, hq, _, _⟩
      · exact hv
      · simp at hq
      · simp at hq
  have S : ∀ n y, Walk g s y n → y ∈ vis := by
    intro n
    induction n using Nat.strong_induction_on with
    | _ n ih =>
      intro y w
      by_cases hn : n ≤ d0 + 1
      · exact T y n hn w
      · cases w with
        | nil => exact absurd (by omega) hn
        | cons w e =>
          rename_i z m
          have hz : z ∈ vis := ih m (by omega) z w
          obtain ⟨m', hm', wz⟩ := inv.vis_walk z hz
          exact T y (m' + 1) (by omega) (wz.cons e)
  rintro ⟨n, w⟩
  exact inv.t_notin (S n t w)

/-- The depth of the queue front is the current layer depth. -/
theorem bfsInv_front_depth {g : ScreenGraph} {s t x : String} {p : List String}
    {rest : List Entry} {vis : List String} {d0 : Nat}
    (inv : BfsInv g s t ((x, p) :: rest) vis d0) : p.length = d0 := by
  obtain ⟨Q1, Q2, hQ, h1, h2, hne⟩ := inv.layers
  have hQ1ne : Q1 ≠ [] := hne (by simp)
  cases Q1 with
  | nil => exact absurd rfl hQ1ne
  | cons a Q1t =>
    have ha : a = (x, p) := by
      have := hQ
      simp only [List.cons_append] at this
      exact (List.cons.injEq _ _ _ _ ▸ this).1.symm
    subst ha
    simpa using h1 (x, p) (by simp)

/-- One non-target expansion step preserves the BFS invariant (for a possibly
advanced layer depth). -/
theorem bfs_step_inv {g : ScreenGraph} {s t x : String} {p : List String}
    {rest : List Entry} {vis : List String} {d0 : Nat}
    (hwf : WFGraph g) (inv : BfsInv g s t ((x, p) :: rest) vis d0) (hxt : x ≠ t) :
    ∃ d0', BfsInv g s t (rest ++ bfsChildren g x p (vis.insert x)) (vis.insert x) d0' := by
  obtain ⟨Q1, Q2, hQ, h1, h2, hne⟩ := inv.layers
  have hQ1ne : Q1 ≠ [] := hne (by simp)
  obtain ⟨Q1t, hQ1, hrest⟩ : ∃ Q1t, Q1 = (x, p) :: Q1t ∧ rest = Q1t ++ Q2 := by
    cases Q1 with
    | nil => exact absurd rfl hQ1ne
    | cons a Q1t =>
      have := hQ
      simp only [List.cons_append, List.cons.injEq] at this
      exact ⟨Q1t, by rw [this.1], this.2⟩
  have hfront : p.length = d0 := bfsInv_front_depth inv
  have hent : EntryInv g s vis (x, p) := inv.entries _ (by simp)
  have hxnodes : x ∈ g.nodes := hent.2.2.2.1 x (by simp)
  have hwalkx : Walk g s x d0 := hfront ▸ hent.2.1
  have hsubv : ∀ z ∈ vis, z ∈ vis.insert x := fun z hz => by
    simp [List.mem_insert_iff, hz]
  have hxv : x ∈ vis.insert x := by simp
  have hpxsub : ∀ z ∈ p ++ [x], z ∈ vis.insert x := by
    intro z hz
    rcases List.mem_append.mp hz with h | h
    · exact hsubv z (hent.2.2.2.2 z h)
    · simp at h; subst h; exact hxv
  have hchildlen : ∀ e ∈ bfsChildren g x p (vis.insert x), e.2.length = d0 + 1 := by
    intro e he
    obtain ⟨y, _, _, rfl⟩ := mem_bfsChildren.mp he
    simp [hfront]
  have hchild : ∀ e ∈ bfsChildren g x p (vis.insert x), EntryInv g s (vis.insert x) e := by
    intro e he
    obtain ⟨y, hy, hyv, rfl⟩ := mem_bfsChildren.mp he
    refine ⟨?_, ?_, ?_, ?_, ?_⟩
    · exact head?_append_left hent.1
    · have : Walk g s y (p.length + 1) := hent.2.1.cons hy
      simpa using this
    · have hnd : (p ++ [x]).Nodup := hent.2.2.1
      have hyn : y ∉ p ++ [x] := fun hmem => hyv (hpxsub y hmem)
      rw [List.nodup_append]
      refine ⟨hnd, List.nodup_singleton y, ?_⟩
      intro a ha hb
      simp only [List.mem_singleton] at hb
      subst hb
      exact hyn ha
    · intro z hz
      rcases List.mem_append.mp hz with h | h
      · exact hent.2.2.2.1 z h
      · simp only [List.mem_singleton] at h
        subst h
        exact hwf.2 x hxnodes _ hy
    · exact hpxsub
  have hents : ∀ e ∈ rest ++ bfsChildren g x p (vis.insert x),
      EntryInv g s (vis.insert x) e := by
    intro e he
    rcases List.mem_append.mp he with h | h
    · exact (inv.entries e (by simp [h])).mono hsubv
    · exact hchild e h
  have hvw : ∀ v ∈ vis.insert x, ∃ m ≤ d0, Walk g s v m := by
    intro v hv
    rcases List.mem_insert_iff.mp hv with rfl | hv
    · exact ⟨d0, le_refl _, hwalkx⟩
    · exact inv.vis_walk v hv
  have htn : t ∉ vis.insert x := by
    simp only [List.mem_insert_iff, not_or]
    exact ⟨fun h => hxt h.symm, inv.t_notin⟩
  by_cases hQ1t : Q1t = []
  · -- the expanded entry was the last of its layer: the layer advances
    subst hQ1t
    simp only [List.nil_append] at hrest
    have h2r : ∀ e ∈ rest, e.2.length = d0 + 1 := by
      intro e he
      rw [hrest] at he
      exact h2 e he
    have hA1 : ∀ y n, Walk g s y n → n < d0 + 1 → y ∈ vis.insert x := by
      intro y n w hn
      rcases Nat.lt_or_ge n d0 with hlt | hge
      · exact hsubv y (inv.compA1 y n w hlt)
      · have : n = d0 := by omega
        subst this
        rcases inv.compA2 y w with hv | ⟨q, hq, hql⟩
        · exact hsubv y hv
        · rcases List.mem_cons.mp hq with heq | hmem
          · cases heq; exact hxv
          · have := h2r (y, q) hmem
            simp at this
            omega
    have hT : ∀ y k, k ≤ d0 + 1 → Walk g s y k →
        y ∈ vis.insert x ∨
          ∃ q, (y, q) ∈ rest ++ bfsChildren g x p (vis.insert x) ∧ q.length ≤ d0 + 1 := by
      intro y k hk w
      rcases Nat.lt_or_ge k (d0 + 1) with hlt | hge
      · exact Or.inl (hA1 y k w hlt)
      · have : k = d0 + 1 := by omega
        subst this
        rcases inv.compB y w with hv | ⟨q, hq, hql⟩ | ⟨z, q, hq, hql, hyz⟩
        · exact Or.inl (hsubv y hv)
        · rcases List.mem_cons.mp hq with heq | hmem
          · cases heq; exact Or.inl hxv
          · exact Or.inr ⟨q, List.mem_append_left _ hmem, hql⟩
        · rcases List.mem_cons.mp hq with heq | hmem
          · cases heq
            by_cases hyv : y ∈ vis.insert x
            · exact Or.inl hyv
            · exact Or.inr ⟨p ++ [x],
                List.mem_append_right _ (mem_bfsChildren.mpr ⟨y, hyz, hyv, rfl⟩),
                by simp [hfront]⟩
          · have := h2r (z, q) hmem
            simp at this
            omega
    refine ⟨d0 + 1, hents, ?_, ?_, htn, hA1, fun y w => hT y (d0 + 1) le_rfl w, ?_⟩
    · refine ⟨rest ++ bfsChildren g x p (vis.insert x), [], by simp, ?_, by simp,
        fun h => by simpa using h⟩
      intro e he
      rcases List.mem_append.mp he with h | h
      · exact h2r e h
      · exact hchildlen e h
    · intro v hv
      obtain ⟨m, hm, w⟩ := hvw v hv
      exact ⟨m, by omega, w⟩
    · -- compB for the advanced layer
      intro y w
      cases w with
      | cons w e =>
        rename_i z
        rcases hT z (d0 + 1) le_rfl w with hzv | ⟨q, hq, hql⟩
        · rcases List.mem_insert_iff.mp hzv with rfl | hz
          · rcases hT y (d0 + 1) le_rfl (hwalkx.cons e) with h | ⟨q, hq, hql⟩
            · exact Or.inl h
            · exact Or.inr (Or.inl ⟨q, hq, by omega⟩)
          · obtain ⟨m, hm, wz⟩ := inv.vis_walk z hz
            rcases hT y (m + 1) (by omega) (wz.cons e) with h | ⟨q, hq, hql⟩
            · exact Or.inl h
            · exact Or.inr (Or.inl ⟨q, hq, by omega⟩)
        · exact Or.inr (Or.inr ⟨z, q, hq, hql, e⟩)
  · -- the layer is unchanged
    refine ⟨d0, hents, ?_, hvw, htn, ?_, ?_, ?_⟩
    · refine ⟨Q1t, Q2 ++ bfsChildren g x p (vis.insert x),
        by rw [hrest, List.append_assoc], ?_, ?_, fun _ => hQ1t⟩
      · intro e he
        exact h1 e (by simp [hQ1, he])
      · intro e he
        rcases List.mem_append.mp he with h | h
        · exact h2 e h
        · exact hchildlen e h
    · intro y n w hn
      exact hsubv y (inv.compA1 y n w hn)
    · intro y w
      rcases inv.compA2 y w with hv | ⟨q, hq, hql⟩
      · exact Or.inl (hsubv y hv)
      · rcases List.mem_cons.mp hq with heq | hmem
        · cases heq; exact Or.inl hxv
        · exact Or.inr ⟨q, List.mem_append_left _ hmem, hql⟩
    · intro y w
      rcases inv.compB y w with hv | ⟨q, hq, hql⟩ | ⟨z, q, hq, hql, hyz⟩
      · exact Or.inl (hsubv y hv)
      · rcases List.mem_cons.mp hq with heq | hmem
        · cases heq; exact Or.inl hxv
        · exact Or.inr (Or.inl ⟨q, List.mem_append_left _ hmem, hql⟩)
      · rcases List.mem_cons.mp hq with heq | hmem
        · cases heq
          by_cases hyv : y ∈ vis.insert x
          · exact Or.inl hyv
          · exact Or.inr (Or.inl ⟨p ++ [x],
              List.mem_append_right _ (mem_bfsChildren.mpr ⟨y, hyz, hyv, rfl⟩),
              by simp [hfront]⟩)
        · exact Or.inr (Or.inr ⟨z, q, List.mem_append_left _ hmem, hql, hyz⟩)

/-- Main loop correctness, by induction on the fuel: with fuel above the
queue measure and the invariant holding, the loop fulfils `BfsOut`. -/
theorem bfs_main {g : ScreenGraph} {s t : String} (hwf : WFGraph g) :
    ∀ fuel Q vis tr d0, qMeasure g Q < fuel → BfsInv g s t Q vis d0 →
      BfsOut g s t (bfsAux g t fuel Q vis tr) := by
  intro fuel
  induction fuel with
  | zero => intro Q vis tr d0 hm _; omega
  | succ fuel ih =>
    intro Q vis tr d0 hm inv
    match Q with
    | [] =>
      simp only [bfsAux, BfsOut]
      exact bfsInv_nil_unreachable inv
    | (x, p) :: rest =>
      have hent := inv.entries (x, p) (by simp)
      have hfront : p.length = d0 := bfsInv_front_depth inv
      have hlen : p.length + 1 ≤ g.nodes.length := by
        have hnd := hent.2.2.1
        have hsub : p ++ [x] ⊆ g.nodes := fun z hz => hent.2.2.2.1 z hz
        have := (List.subperm_of_subset hnd hsub).length_le
        simpa using this
      by_cases hxt : x = t
      · have hres : bfsAux g t (fuel + 1) ((x, p) :: rest) vis tr
            = some (some (p ++ [x]), tr ++ [x]) := by
          simp [bfsAux, hxt]
        rw [hres]
        simp only [BfsOut]
        refine ⟨hent.1, ?_, d0, by simp [hfront], ?_, ?_, ?_⟩
        · rw [List.getLast?_concat]
          exact congrArg some hxt
        · exact hxt ▸ hfront ▸ hent.2.1
        · intro m hmlt w
          exact absurd (inv.compA1 t m w hmlt) inv.t_notin
        · omega
      · obtain ⟨d0', inv'⟩ := bfs_step_inv hwf inv hxt
        have hxnodes : x ∈ g.nodes := hent.2.2.2.1 x (by simp)
        have hmlt : qMeasure g (rest ++ bfsChildren g x p (vis.insert x))
            < qMeasure g ((x, p) :: rest) := by
          rw [qMeasure_append, qMeasure_cons]
          have := qMeasure_children_lt (vis.insert x) hxnodes hlen
          omega
        have hres : bfsAux g t (fuel + 1) ((x, p) :: rest) vis tr
            = bfsAux g t fuel (rest ++ bfsChildren g x p (vis.insert x))
                (vis.insert x) (tr ++ [x]) := by
          simp [bfsAux, hxt]
        rw [hres]
        exact ih _ _ _ d0' (by omega) inv'

/-- The starting state of the BFS satisfies the invariant. -/
theorem bfsInv_init (g : ScreenGraph) (s t : String) (hs : s ∈ g.nodes) :
    BfsInv g s t [(s, [])] [] 0 := by
  refine ⟨?_, ⟨[(s, [])], [], by simp, by simp, by simp, fun _ => by simp⟩,
    by simp, by simp, ?_, ?_, ?_⟩
  · intro e he
    simp only [List.mem_singleton] at he
    subst he
    exact ⟨by simp, Walk.nil, by simp, by simpa using hs, by simp⟩
  · intro y n _ hn
    omega
  · intro y w
    have := w.eq_of_zero
    subst this
    exact Or.inr ⟨[], by simp, by simp⟩
  · intro y w
    cases w with
    | cons w e =>
      rename_i z
      have hz := w.eq_of_zero
      exact Or.inr (Or.inr ⟨z, [], by simp [hz], by simp, e⟩)

/-- The fuel `bfsFuel` is enough: the run from the initial state meets the
outcome specification. -/
theorem find_path_out {g : ScreenGraph} (s t : String) (hwf : WFGraph g)
    (hs : s ∈ g.nodes) :
    BfsOut g s t (bfsAux g t (bfsFuel g) [(s, [])] [] []) := by
  refine bfs_main hwf (bfsFuel g) [(s, [])] [] [] 0 ?_ (bfsInv_init g s t hs)
  have : qMeasure g [(s, [])] = graphB g ^ (g.nodes.length + 1) := by
    simp [qMeasure, entryWeight]
  rw [this, bfsFuel]
  exact Nat.lt_succ_self _

/-- On a reachable pair, `_find_path` returns a path from source to target
whose edge count is the shortest-path distance. -/
theorem find_path_of_reachable {g : ScreenGraph} {s t : String} (hwf : WFGraph g)
    (hs : s ∈ g.nodes) (hr : Reachable g s t) :
    ∃ p, find_path g s t = some p ∧ p.head? = some s ∧ p.getLast? = some t ∧
      distOf g s t = some (p.length - 1) := by
  have h := find_path_out s t hwf hs
  rcases hres : bfsAux g t (bfsFuel g) [(s, [])] [] [] with _ | ⟨r, tr⟩
  · rw [hres] at h
    simp only [BfsOut] at h
  · rcases r with _ | p
    · rw [hres] at h
      simp only [BfsOut] at h
      exact absurd hr h
    · rw [hres] at h
      simp only [BfsOut] at h
      obtain ⟨h1, h2, d, hplen, hw, hmin, hbound⟩ := h
      refine ⟨p, by simp [find_path, hres], h1, h2, ?_⟩
      have hreach : reachInB g s d t = true :=
        (reachInB_iff hwf hs d t).mpr ⟨d, le_rfl, hw⟩
      have hbelow : ∀ m < d, reachInB g s m t = false := by
        intro m hmlt
        by_contra hc
        have hc' : reachInB g s m t = true := by
          revert hc
          cases reachInB g s m t <;> simp
        obtain ⟨k, hk, wk⟩ := (reachInB_iff hwf hs m t).mp hc'
        exact hmin k (by omega) wk
      have hda := distAux_eq_some (g := g) (s := s) (t := t) (d := d)
        (g.nodes.length + 1) 0 (by omega) (by omega) hreach hbelow
      rw [distOf, hda]
      congr 1
      omega

/-- On an unreachable pair, `_find_path` returns `None`. -/
theorem find_path_none_of_not_reachable {g : ScreenGraph} {s t : String}
    (hwf : WFGraph g) (hs : s ∈ g.nodes) (hnr : ¬ Reachable g s t) :
    find_path g s t = none := by
  have h := find_path_out s t hwf hs
  rcases hres : bfsAux g t (bfsFuel g) [(s, [])] [] [] with _ | ⟨r, tr⟩
  · rw [hres] at h
    simp only [BfsOut] at h
  · rcases r with _ | p
    · simp [find_path, hres]
    · rw [hres] at h
      simp only [BfsOut] at h
      obtain ⟨_, _, d, _, hw, _, _⟩ := h
      exact absurd ⟨d, hw⟩ hnr

/-- Conversely a `None` answer certifies unreachability. -/
theorem not_reachable_of_find_path_none {g : ScreenGraph} {s t : String}
    (hwf : WFGraph g) (hs : s ∈ g.nodes) (h : find_path g s t = none) :
    ¬ Reachable g s t := by
  intro hr
  obtain ⟨p, hp, _⟩ := find_path_of_reachable hwf hs hr
  rw [h] at hp
  cases hp

/-- With source equal to target the very first dequeue returns the trivial
path. -/
theorem find_path_refl (g : ScreenGraph) (s : String) :
    find_path g s s = some [s] := by
  simp [find_path, bfsFuel, bfsAux]

/-- The executor loop only ever appends to the event log. -/
theorem execPath_events_append (trans : String → List (String × String))
    (detect : Nat → Option String) (target : String) :
    ∀ (l : List String) (cur : String) (k : Nat) (evs : List Event),
      ∃ tail, (execPath trans detect target l cur k evs).events = evs ++ tail := by
  intro l
  induction l with
  | nil => intro cur k evs; exact ⟨[Event.debugSave], rfl⟩
  | cons st rest ih =>
    intro cur k evs
    simp only [execPath]
    cases hfind : (trans cur).find? (fun pr => pr.2 == st) with
    | none => exact ⟨[], by simp⟩
    | some pr =>
      rcases pr with ⟨inp, tgt⟩
      by_cases hdet : detect k = some target
      · simp only [hdet, if_pos rfl]
        exact ⟨[Event.fireAction cur inp tgt, Event.captureDetect], rfl⟩
      · simp only [if_neg hdet]
        obtain ⟨tail, htail⟩ :=
          ih tgt (k + 1) (evs ++ [Event.fireAction cur inp tgt, Event.captureDetect])
        exact ⟨[Event.fireAction cur inp tgt, Event.captureDetect] ++ tail,
          by rw [htail, List.append_assoc]⟩

/-- Along the executor loop the belief only moves to transition targets, so
it stays inside the node set. -/
theorem execPath_final_mem (nodes : List String)
    (trans : String → List (String × String)) (detect : Nat → Option String)
    (target : String) (htr : ∀ x pr, pr ∈ trans x → pr.2 ∈ nodes) :
    ∀ (l : List String) (cur : String) (k : Nat) (evs : List Event),
      cur ∈ nodes → (execPath trans detect target l cur k evs).final ∈ nodes := by
  intro l
  induction l with
  | nil => intro cur k evs hc; exact hc
  | cons st rest ih =>
    intro cur k evs hc
    simp only [execPath]
    cases hfind : (trans cur).find? (fun pr => pr.2 == st) with
    | none => exact hc
    | some pr =>
      rcases pr with ⟨inp, tgt⟩
      have htgt : tgt ∈ nodes := htr cur (inp, tgt) (List.mem_of_find?_eq_some hfind)
      by_cases hdet : detect k = some target
      · simp only [hdet, if_pos rfl]
        exact htgt
      · simp only [if_neg hdet]
        exact ih tgt (k + 1) _ htgt

/-- The retry loop makes at most as many detection attempts as it has
iterations. -/
theorem retryLoop_attempts_le (att : Nat → Option String) :
    ∀ r i, (retryLoop att i r).2.1 ≤ r := by
  intro r
  induction r with
  | zero => intro i; simp [retryLoop]
  | succ r ih =>
    intro i
    simp only [retryLoop]
    cases att i with
    | some nm => simp
    | none =>
      by_cases hr : r = 0
      · simp [hr]
      · simp only [if_neg hr]
        have := ih (i + 1)
        simpa using Nat.succ_le_succ this

/-- When the first `k - 1` attempts fail and attempt `k` succeeds within the
budget, the loop stops there: it returns the `k`-th detected state, having
made `k` attempts and `k - 1` retry actions. -/
theorem retryLoop_success (att : Nat → Option String) :
    ∀ r i k nm, 1 ≤ k → k ≤ r →
      (∀ j, j + 1 < k → att (i + j) = none) → att (i + (k - 1)) = some nm →
      retryLoop att i r = (Except.ok (some nm), k, k - 1) := by
  intro r
  induction r with
  | zero => intro i k nm h1 h2 _ _; omega
  | succ r ih =>
    intro i k nm h1 h2 hfail hsucc
    by_cases hk : k = 1
    · subst hk
      have : att i = some nm := by simpa using hsucc
      simp [retryLoop, this]
    · have hk2 : 2 ≤ k := by omega
      have hi : att i = none := by
        have := hfail 0 (by omega)
        simpa using this
      have hr : r ≠ 0 := by omega
      have hrec : retryLoop att (i + 1) r = (Except.ok (some nm), k - 1, k - 1 - 1) := by
        refine ih (i + 1) (k - 1) nm (by omega) (by omega) ?_ ?_
        · intro j hj
          have := hfail (j + 1) (by omega)
          rw [show i + (j + 1) = i + 1 + j by omega] at this
          exact this
        · rw [show i + 1 + (k - 1 - 1) = i + (k - 1) by omega]
          exact hsucc
      simp only [retryLoop, hi, if_neg hr, hrec]
      refine congrArg _ ?_
      have : k - 1 - 1 + 1 = k - 1 := by omega
      simp [this]
      omega

/-- When every attempt within the budget fails, the loop re-raises after the
last attempt: `maxRetries` attempts, `maxRetries - 1` retry actions. -/
theorem retryLoop_allfail (att : Nat → Option String) :
    ∀ r i, 1 ≤ r → (∀ j, j < r → att (i + j) = none) →
      retryLoop att i r = (Except.error (), r, r - 1) := by
  intro r
  induction r with
  | zero => intro i h _; omega
  | succ r ih =>
    intro i _ hfail
    have hi : att i = none := by simpa using hfail 0 (by omega)
    by_cases hr : r = 0
    · subst hr
      simp [retryLoop, hi]
    · have hrec : retryLoop att (i + 1) r = (Except.error (), r, r - 1) := by
        refine ih (i + 1) (by omega) ?_
        intro j hj
        have := hfail (j + 1) (by omega)
        rw [show i + (j + 1) = i + 1 + j by omega] at this
        exact this
      simp only [retryLoop, hi, if_neg hr, hrec]
      refine congrArg _ ?_
      simp
      omega

/-- The loop only reports the fatal error when there was at least one
iteration and every attempt within the budget failed. -/
theorem retryLoop_error (att : Nat → Option String) :
    ∀ r i, (retryLoop att i r).1 = Except.error () →
      1 ≤ r ∧ ∀ j, j < r → att (i + j) = none := by
  intro r
  induction r with
  | zero => intro i h; simp [retryLoop] at h
  | succ r ih =>
    intro i h
    simp only [retryLoop] at h
    cases hi : att i with
    | some nm => rw [hi] at h; simp at h
    | none =>
      rw [hi] at h
      by_cases hr : r = 0
      · refine ⟨by omega, ?_⟩
        intro j hj
        have : j = 0 := by omega
        subst this
        simpa using hi
      · rw [if_neg hr] at h
        have := ih (i + 1) h
        refine ⟨by omega, ?_⟩
        intro j hj
        cases j with
        | zero => simpa using hi
        | succ j =>
          have := this.2 j (by omega)
          rw [show i + 1 + j = i + (j + 1) by omega] at this
          exact this

/-- A successful retry loop returns a state produced by some attempt. -/
theorem retryLoop_ok_some (att : Nat → Option String) :
    ∀ r i nm, (retryLoop att i r).1 = Except.ok (some nm) →
      ∃ j, att j = some nm := by
  intro r
  induction r with
  | zero => intro i nm h; simp [retryLoop] at h
  | succ r ih =>
    intro i nm h
    simp only [retryLoop] at h
    cases hi : att i with
    | some nm' =>
      rw [hi] at h
      simp at h
      exact ⟨i, by rw [hi, h]⟩
    | none =>
      rw [hi] at h
      by_cases hr : r = 0
      · rw [if_pos hr] at h; simp at h
      · rw [if_neg hr] at h
        exact ih (i + 1) nm h

/-- Every transition target of the repository table is a catalogued screen
(this is what `setup_transitions` relies on when it looks the target up). -/
theorem repoTrans_targets : ∀ x pr, pr ∈ repoTrans x → pr.2 ∈ repoStates := by
  intro x pr hpr
  unfold repoTrans at hpr
  split at hpr <;> simp_all <;> rcases hpr with rfl | rfl <;> decide

/-- C1: for every finite directed screen graph and pair `(s, t)` with `t`
reachable from `s`, `_find_path` returns a path whose first element is `s`,
whose last element is `t`, and whose edge count is the BFS shortest-path
distance; for `s = t` it returns the trivial `[s]`; for unreachable `t` it
returns `None`. -/
theorem C1_find_path_correct (g : ScreenGraph) (s t : String)
    (hwf : WFGraph g) (hs : s ∈ g.nodes) :
    (Reachable g s t →
      ∃ p, find_path g s t = some p ∧ p.head? = some s ∧ p.getLast? = some t ∧
        distOf g s t = some (p.length - 1)) ∧
    (s = t → find_path g s t = some [s]) ∧
    (¬ Reachable g s t → find_path g s t = none) :=
  ⟨fun hr => find_path_of_reachable hwf hs hr,
   fun h => by rw [h]; exact find_path_refl g t,
   fun hnr => find_path_none_of_not_reachable hwf hs hnr⟩

/-- Witness for C1 on the line graph `A → B → C`. -/
theorem C1_witness :
    (∃ p, find_path gWitness "A" "C" = some p ∧ p.head? = some "A" ∧
        p.getLast? = some "C" ∧ distOf gWitness "A" "C" = some (p.length - 1)) ∧
    find_path gWitness "C" "C" = some ["C"] ∧
    find_path gWitness "C" "A" = none :=
  ⟨(C1_find_path_correct gWitness "A" "C" (by decide) (by decide)).1
      ⟨2, @Walk.cons gWitness "A" "B" "C" 1
        (@Walk.cons gWitness "A" "A" "B" 0 Walk.nil (by decide)) (by decide)⟩,
   (C1_find_path_correct gWitness "C" "C" (by decide) (by decide)).2.1 rfl,
   (C1_find_path_correct gWitness "C" "A" (by decide) (by decide)).2.2
      (not_reachable_of_find_path_none (by decide) (by decide) (by decide))⟩

/-- C2: when the target is unreachable from the (possibly re-detected)
belief, `detect_and_transition` returns `False`, leaves the belief at the
re-detected value, and emits only the one capture-and-detect and the planner
call: no focus pull and no action (hence no input-provider call) happens. -/
theorem C2_unreachable_failure (M : Machine) (detect : Nat → Option String)
    (target : String) (hwf : WFGraph M.graphOf) (hcur : M.current ∈ M.nodes)
    (hdet : ∀ b, detect 0 = some b → b ∈ M.nodes)
    (hunreach : ¬ Reachable M.graphOf (dtBelief1 M detect target) target) :
    detect_and_transition M detect target =
      ⟨false, dtBelief1 M detect target,
        [Event.captureDetect, Event.plan (dtBelief1 M detect target)]⟩ ∧
    ∀ e ∈ (detect_and_transition M detect target).events,
      e ≠ Event.focusPull ∧ ∀ a b c, e ≠ Event.fireAction a b c := by
  have hct : M.current ≠ target := by
    intro h
    refine hunreach ?_
    simp only [dtBelief1, if_pos h, h]
    exact ⟨0, Walk.nil⟩
  have hb1 : dtBelief1 M detect target =
      (match detect 0 with | some b => b | none => M.current) := by
    simp [dtBelief1, hct]
  have hbt : dtBelief1 M detect target ≠ target := by
    intro h
    refine hunreach ?_
    rw [h]
    exact ⟨0, Walk.nil⟩
  have hb1mem : dtBelief1 M detect target ∈ M.nodes := by
    rw [hb1]
    cases hd : detect 0 with
    | none => exact hcur
    | some b => exact hdet b hd
  have hfp : find_path M.graphOf (dtBelief1 M detect target) target = none :=
    find_path_none_of_not_reachable hwf hb1mem hunreach
  cases hd : detect 0 with
  | none =>
    have he : dtBelief1 M detect target = M.current := by rw [hb1, hd]
    rw [he] at hbt hfp ⊢
    constructor
    · simp [detect_and_transition, hct, hd, hbt, hfp]
    · intro e hee
      simp [detect_and_transition, hct, hd, hbt, hfp] at hee
      rcases hee with rfl | rfl <;> simp
  | some b =>
    have he : dtBelief1 M detect target = b := by rw [hb1, hd]
    rw [he] at hbt hfp ⊢
    constructor
    · simp [detect_and_transition, hct, hd, hbt, hfp]
    · intro e hee
      simp [detect_and_transition, hct, hd, hbt, hfp] at hee
      rcases hee with rfl | rfl <;> simp

/-- Witness for C2 on the repository graph: `Round Starting` has no incoming
transition, so it is unreachable from the re-detected `Menu` belief. -/
theorem C2_witness :
    detect_and_transition (repoMachine "Main Menu") (fun _ => some "Menu")
        "Round Starting" =
      ⟨false,
        dtBelief1 (repoMachine "Main Menu") (fun _ => some "Menu") "Round Starting",
        [Event.captureDetect,
          Event.plan (dtBelief1 (repoMachine "Main Menu") (fun _ => some "Menu")
            "Round Starting")]⟩ ∧
    ∀ e ∈ (detect_and_transition (repoMachine "Main Menu") (fun _ => some "Menu")
        "Round Starting").events,
      e ≠ Event.focusPull ∧ ∀ a b c, e ≠ Event.fireAction a b c :=
  C2_unreachable_failure (repoMachine "Main Menu") (fun _ => some "Menu")
    "Round Starting" (by decide) (by decide)
    (fun b hb => by rw [← Option.some.inj hb]; decide)
    (not_reachable_of_find_path_none (by decide) (by decide) (by decide))

/-- C3: inside the executor loop, once the action of a hop fired, if the fresh
detection reports the overall target the loop returns success at once with
the intended target of the hop as belief, never touching the remaining hops (the
result does not depend on `rest`). -/
theorem C3_short_circuit (trans : String → List (String × String))
    (detect : Nat → Option String) (target st cur : String)
    (rest : List String) (k : Nat) (evs : List Event) (inp tgt : String)
    (hfind : (trans cur).find? (fun pr => pr.2 == st) = some (inp, tgt))
    (hdet : detect k = some target) :
    execPath trans detect target (st :: rest) cur k evs =
      ⟨true, tgt, evs ++ [Event.fireAction cur inp tgt, Event.captureDetect]⟩ := by
  simp [execPath, hfind, hdet]

/-- Witness for C3: a planned 3-hop path `A → B → C → D` where detection
after the first hop already reports `D`; hops 2 and 3 are never attempted. -/
theorem C3_witness :
    execPath mWit.trans (fun k => if k = 1 then some "D" else none) "D"
      ["B", "C", "D"] "A" 1 [] =
      ⟨true, "B", [Event.fireAction "A" "go" "B", Event.captureDetect]⟩ :=
  C3_short_circuit mWit.trans (fun k => if k = 1 then some "D" else none)
    "D" "B" "A" ["C", "D"] 1 [] "go" "B" (by decide) (by decide)

/-- C4: when the call does not return at once, a capture-and-detect happens
first, and if it reports `B` the planner is invoked from `B` (the event log
starts with the detection followed by a planning event sourced at `B`). -/
theorem C4_fresh_detection_before_planning (M : Machine)
    (detect : Nat → Option String) (target B : String)
    (hct : M.current ≠ target) (hd : detect 0 = some B) (hbt : B ≠ target) :
    ∃ evs, (detect_and_transition M detect target).events =
      [Event.captureDetect, Event.plan B] ++ evs := by
  simp only [detect_and_transition, if_neg hct, hd]
  rw [if_neg hbt]
  cases hfp : find_path M.graphOf B target with
  | none =>
    exact ⟨[], rfl⟩
  | some path =>
    obtain ⟨tail, htail⟩ := execPath_events_append M.trans detect target
      (path.drop 1) B 1 [Event.captureDetect, Event.plan B, Event.focusPull]
    refine ⟨Event.focusPull :: tail, ?_⟩
    show (execPath M.trans detect target (path.drop 1) B 1
      [Event.captureDetect, Event.plan B, Event.focusPull]).events =
      [Event.captureDetect, Event.plan B] ++ (Event.focusPull :: tail)
    rw [htail]
    simp

/-- Witness for C4 on the repository machine: stale belief `Main Menu`,
fresh detection `Menu`, target `Scoreboard`. -/
theorem C4_witness :
    ∃ evs, (detect_and_transition (repoMachine "Main Menu") (fun _ => some "Menu")
        "Scoreboard").events =
      [Event.captureDetect, Event.plan "Menu"] ++ evs :=
  C4_fresh_detection_before_planning (repoMachine "Main Menu")
    (fun _ => some "Menu") "Scoreboard" "Menu" (by decide) rfl (by decide)

/-- C5: when the belief already equals the target, `detect_and_transition`
returns success with no events at all (no capture, no detection, no action),
and calling it again in the same situation behaves identically whatever the
detection oracle would say. -/
theorem C5_idempotent (M : Machine) (detect detect2 : Nat → Option String)
    (X : String) (h : M.current = X) :
    detect_and_transition M detect X = ⟨true, X, []⟩ ∧
    detect_and_transition
        ⟨M.nodes, M.trans, (detect_and_transition M detect X).final⟩ detect2 X =
      ⟨true, X, []⟩ := by
  constructor
  · simp [detect_and_transition, h]
  · simp [detect_and_transition, h]

/-- Witness for C5 on the repository machine at the `Menu` screen. -/
theorem C5_witness :
    detect_and_transition (repoMachine "Menu") (fun _ => some "Play") "Menu" =
      ⟨true, "Menu", []⟩ ∧
    detect_and_transition
        ⟨(repoMachine "Menu").nodes, (repoMachine "Menu").trans,
          (detect_and_transition (repoMachine "Menu") (fun _ => some "Play")
            "Menu").final⟩ (fun _ => none) "Menu" =
      ⟨true, "Menu", []⟩ :=
  C5_idempotent (repoMachine "Menu") (fun _ => some "Play") (fun _ => none)
    "Menu" rfl

/-- C6: the retry loop makes at most `maxRetries` attempts; when the first
`k - 1` attempts fail and attempt `k` succeeds (1-indexed, within budget) it
returns the `k`-th detected state having run the retry action exactly `k - 1`
times; when all attempts fail (with at least one allowed) it raises the fatal
error after `maxRetries` attempts and `maxRetries - 1` retry actions — the
retry action runs exactly once between consecutive attempts and never after
the last. -/
theorem C6_initial_detection_retries (att : Nat → Option String) (maxR : Nat) :
    ((detect_initial_state_with_retries att maxR).2.1 ≤ maxR) ∧
    (∀ k nm, 1 ≤ k → k ≤ maxR → (∀ j, j + 1 < k → att j = none) →
      att (k - 1) = some nm →
      detect_initial_state_with_retries att maxR =
        (Except.ok (some nm), k, k - 1)) ∧
    (1 ≤ maxR → (∀ j, j < maxR → att j = none) →
      detect_initial_state_with_retries att maxR =
        (Except.error (), maxR, maxR - 1)) := by
  refine ⟨retryLoop_attempts_le att maxR 0, ?_, ?_⟩
  · intro k nm h1 h2 hfail hsucc
    exact retryLoop_success att maxR 0 k nm h1 h2
      (fun j hj => by simpa using hfail j hj) (by simpa using hsucc)
  · intro h1 hfail
    exact retryLoop_allfail att maxR 0 h1 (fun j hj => by simpa using hfail j hj)

/-- Witness for C6: two failures then success with `max_retries = 3` yields
the screen of the third attempt and exactly two retry actions; three allowed
attempts all failing yields the fatal error. -/
theorem C6_witness :
    detect_initial_state_with_retries attWit 3 = (Except.ok (some "Menu"), 3, 2) ∧
    detect_initial_state_with_retries (fun _ => none) 2 = (Except.error (), 2, 1) :=
  ⟨(C6_initial_detection_retries attWit 3).2.1 3 "Menu" (by omega) (by omega)
      (fun j hj => by
        have hj2 : j < 2 := by omega
        simp [attWit, hj2])
      (by simp [attWit]),
   (C6_initial_detection_retries (fun _ => none) 2).2.2 (by omega)
      (fun j _ => rfl)⟩

/-- C7 (counterexample): in the diamond graph `A → {B, C} → D` with an
absent target, the BFS dequeues and expands `D` twice — the search does not
visit each node at most once. -/
theorem C7_counterexample :
    WFGraph gDiamond ∧ "A" ∈ gDiamond.nodes ∧
    (bfsTrace gDiamond "A" "E").count "D" = 2 ∧
    ¬ (bfsTrace gDiamond "A" "E").count "D" ≤ 1 :=
  ⟨by decide, by decide, by decide, by decide⟩

/-- C7 (amended): the BFS never enqueues a node that is already visited at
enqueue time (but a node enqueued twice before its first dequeue is expanded
twice), and the search terminates on every well-formed finite directed
screen graph, cyclic or not: the fuel of `find_path` never runs out. -/
theorem C7_bfs_terminates (g : ScreenGraph) (s t : String)
    (hwf : WFGraph g) (hs : s ∈ g.nodes) :
    bfsAux g t (bfsFuel g) [(s, [])] [] [] ≠ none ∧
    (∀ x p vis e, e ∈ bfsChildren g x p vis → e.1 ∉ vis) := by
  constructor
  · intro h
    have hout := find_path_out s t hwf hs
    rw [h] at hout
    simp only [BfsOut] at hout
  · intro x p vis e he
    obtain ⟨y, _, hyv, rfl⟩ := mem_bfsChildren.mp he
    exact hyv

/-- Witness for the amended C7 on the (cycle-free but multi-route) diamond
graph with unreachable target. -/
theorem C7_witness :
    bfsAux gDiamond "E" (bfsFuel gDiamond) [("A", [])] [] [] ≠ none ∧
    (∀ x p vis e, e ∈ bfsChildren gDiamond x p vis → e.1 ∉ vis) :=
  C7_bfs_terminates gDiamond "A" "E" (by decide) (by decide)

/-- C8: the belief always names a catalogued screen: a successful
construction adopts a detected screen name (valid whenever detection only
reports catalogued names, as the shared `states_info`/`states` keys
guarantee), and `detect_and_transition` keeps the belief inside the catalog
whether it succeeds or fails. -/
theorem C8_belief_in_catalog :
    (∀ (nodes : List String) (att : Nat → Option String) (maxR : Nat) (nm : String),
      (∀ k b, att k = some b → b ∈ nodes) →
      (detect_initial_state_with_retries att maxR).1 = Except.ok (some nm) →
      nm ∈ nodes) ∧
    (∀ (M : Machine) (detect : Nat → Option String) (target : String),
      M.current ∈ M.nodes →
      (∀ x pr, pr ∈ M.trans x → pr.2 ∈ M.nodes) →
      (∀ k b, detect k = some b → b ∈ M.nodes) →
      (detect_and_transition M detect target).final ∈ M.nodes) := by
  constructor
  · intro nodes att maxR nm hatt hok
    obtain ⟨j, hj⟩ := retryLoop_ok_some att maxR 0 nm hok
    exact hatt j nm hj
  · intro M detect target hcur htr hdet
    by_cases h1 : M.current = target
    · simpa [detect_and_transition, h1] using hcur
    · simp only [detect_and_transition, if_neg h1]
      cases hd : detect 0 with
      | none =>
        rw [if_neg h1]
        cases hfp : find_path M.graphOf M.current target with
        | none => exact hcur
        | some path =>
          exact execPath_final_mem M.nodes M.trans detect target htr _ _ _ _ hcur
      | some b =>
        have hb : b ∈ M.nodes := hdet 0 b hd
        by_cases h2 : b = target
        · simpa [if_pos h2] using hb
        · rw [if_neg h2]
          cases hfp : find_path M.graphOf b target with
          | none => exact hb
          | some path =>
            exact execPath_final_mem M.nodes M.trans detect target htr _ _ _ _ hb

/-- Witness for C8: a full walk of the repository machine from `Scoreboard`
toward `In Game` with all post-hop detections failing still leaves the
belief inside the screen catalog. -/
theorem C8_witness :
    (detect_and_transition (repoMachine "Scoreboard") (fun _ => none)
      "In Game").final ∈ (repoMachine "Scoreboard").nodes :=
  C8_belief_in_catalog.2 (repoMachine "Scoreboard") (fun _ => none) "In Game"
    (by decide) (fun x pr hpr => repoTrans_targets x pr hpr)
    (fun k b hb => Option.noConfusion hb)

/-- C9 (counterexample): with an empty rules mapping, a failed capture
(`image = None`) makes `find_text_in_rois` return the plain "no screen
matched" result instead of propagating any error. -/
theorem C9_counterexample :
    find_text_in_rois (fun (_ : Unit) (_ : Unit) => ([] : List String)) none [] =
      Except.ok none := rfl

/-- C9 (amended): for every nonempty rules mapping, a failed capture makes
the detection step raise (the attribute access on the missing frame) rather
than return the "no screen matched" result — so the caller can distinguish
"could not see" from "no known screen". -/
theorem C9_capture_failure_raises {Frame Roi : Type}
    (ocr : Frame → Roi → List String)
    (rules : List (String × Roi × String)) (hne : rules ≠ []) :
    find_text_in_rois ocr none rules = Except.error () := by
  cases rules with
  | nil => exact absurd rfl hne
  | cons r rs =>
    rcases r with ⟨nm, roi, txt⟩
    rfl

/-- Witness for the amended C9 with the first detection rule of the repository. -/
theorem C9_witness :
    find_text_in_rois (fun (_ : Unit) (_ : Unit) => ([] : List String)) none
      [("Main Menu", (), "PLAY")] = Except.error () :=
  C9_capture_failure_raises (fun (_ : Unit) (_ : Unit) => ([] : List String))
    [("Main Menu", (), "PLAY")] (by simp)

/-- C10: with `max_retries = 0` the loop body never runs: no attempt, no
retry action, and the function falls through returning `None`, so the
machine is built with a `None` belief; the fatal error can only arise with
`max_retries ≥ 1` and every attempt failing. -/
theorem C10_zero_retries (att : Nat → Option String) :
    detect_initial_state_with_retries att 0 = (Except.ok none, 0, 0) ∧
    (∀ maxR, (detect_initial_state_with_retries att maxR).1 = Except.error () →
      1 ≤ maxR ∧ ∀ j, j < maxR → att j = none) := by
  constructor
  · rfl
  · intro maxR h
    have := retryLoop_error att maxR 0 h
    exact ⟨this.1, fun j hj => by simpa using this.2 j hj⟩

/-- Witness for C10: the zero-retry run and a concrete error run. -/
theorem C10_witness :
    detect_initial_state_with_retries (fun _ => none) 0 = (Except.ok none, 0, 0) ∧
    (1 ≤ 2 ∧ ∀ j, j < 2 → (fun (_ : Nat) => (none : Option String)) j = none) :=
  ⟨(C10_zero_retries (fun _ => none)).1,
   (C10_zero_retries (fun _ => none)).2 2 rfl⟩

end InvisibleHand
